import Mathlib

/-!
# Verification of the gameserver LRU cache and its HTTP-layer callers

The repository's `src/main.rs` declares modules `lru_storage` and `tetris`
whose sources are not part of the provided tree; only their callers are.
Following the specification (which describes `LRUStorage<K, V>` in detail),
the storage and the `Tetris` value type are modelled from the spec, and the
functions of `main.rs` (`user_id`, `index`) are translated from the source.

The model keeps a single list of `(key, value)` entries ordered by recency,
most-recently-used first.  The spec's "mapping" and "recency order" are the
two views of this one list: the position of an entry in the list is its
recency marker, so the mapping and the recency order are in bijection by
construction, which is exactly the spec's invariant 2.
-/

set_option autoImplicit false

universe u v w

/-- Modelled from the spec: `LRUStorage<K, V>` (module `lru_storage` is not
in the provided sources).  It owns a fixed capacity and the list of live
entries, most-recently-used first. -/
structure LRUStorage (K : Type u) (V : Type v) where
  capacity : Nat
  entries : List (K × V)

namespace LRUStorage

variable {K : Type u} {V : Type v} {R : Type w} [DecidableEq K]

/-- Modelled from the spec: `new(capacity)` creates an empty storage with
the given fixed capacity. -/
def new (capacity : Nat) : LRUStorage K V :=
  ⟨capacity, []⟩

/-- Modelled from the spec: `len()` returns the current number of live
entries. -/
def len (s : LRUStorage K V) : Nat :=
  s.entries.length

/-- The keys of the live entries in recency order (most-recent first). -/
def keys (s : LRUStorage K V) : List K :=
  s.entries.map Prod.fst

/-- The stored value for a key, if present. -/
def lookup (s : LRUStorage K V) (k : K) : Option V :=
  (s.entries.find? (fun e => e.1 = k)).map Prod.snd

/-- Modelled from the spec: `access_refresh(key, read_fn)`.  If the key is
present the entry moves to most-recently-used and `read_fn` is invoked once
on `some value`; if absent `read_fn` is invoked once on `none` and the state
is unchanged.  The result of `read_fn` is returned wrapped in `some`. -/
def access_refresh (s : LRUStorage K V) (k : K) (read_fn : Option V → R) :
    Option R × LRUStorage K V :=
  match s.entries.find? (fun e => e.1 = k) with
  | some (_, v) =>
      (some (read_fn (some v)),
        { s with entries := (k, v) :: s.entries.eraseP (fun e => e.1 = k) })
  | none => (some (read_fn none), s)

/-- Modelled from the spec: `access_refresh_mut_with_create(key, create_fn,
mutate_fn)`.  If the key is present, the entry moves to most-recently-used
and `mutate_fn` is applied to its value.  If absent, `create_fn` is invoked;
if it yields a value, the least-recently-used entry is evicted first when the
insertion would exceed capacity, the new entry is inserted at the
most-recently-used position and `mutate_fn` is applied to it; if `create_fn`
yields nothing, the state is unchanged and `mutate_fn` is not invoked. -/
def access_refresh_mut_with_create (s : LRUStorage K V) (k : K)
    (create_fn : Unit → Option V) (mutate_fn : V → V) : LRUStorage K V :=
  match s.entries.find? (fun e => e.1 = k) with
  | some (_, v) =>
      { s with entries := (k, mutate_fn v) :: s.entries.eraseP (fun e => e.1 = k) }
  | none =>
      match create_fn () with
      | none => s
      | some v =>
          let pruned :=
            if s.entries.length + 1 > s.capacity then s.entries.dropLast else s.entries
          { s with entries := (k, mutate_fn v) :: pruned }

/-- One abstract operation on the storage, for stating invariants over
arbitrary operation sequences.  `read` covers `access_refresh` (whose
`read_fn` result does not influence the state), `write` covers
`access_refresh_mut_with_create`; `len` does not change the state. -/
inductive Op (K : Type u) (V : Type v) where
  | read (k : K)
  | write (k : K) (create : Option V) (mutate : V → V)

/-- Apply one operation to the storage state. -/
def applyOp (s : LRUStorage K V) : Op K V → LRUStorage K V
  | .read k => (s.access_refresh k (fun _ => ())).2
  | .write k c m => s.access_refresh_mut_with_create k (fun _ => c) m

/-- Run a sequence of operations from a freshly constructed storage. -/
def run (c : Nat) (ops : List (Op K V)) : LRUStorage K V :=
  ops.foldl applyOp (new c)

end LRUStorage

/-- Modelled from the spec: the cached value type (`tetris` module is not in
the provided sources; the spec treats it as an opaque owned object created
via `Tetris::new(width, height)`). -/
structure Tetris where
  width : Nat
  height : Nat
deriving DecidableEq

/-- Modelled from the spec: `Tetris::new`. -/
def Tetris.new (width height : Nat) : Tetris :=
  ⟨width, height⟩

/-- Translation of `type Tetrises = LRUStorage<u32, Tetris>` from `main.rs`;
keys are the u32 user ids, modelled as `Nat`. -/
abbrev Tetrises := LRUStorage Nat Tetris

/-- Rust's `str::parse::<u32>()`: an optional leading `+`, then at least one
ASCII decimal digit, value within u32 range; anything else fails.  Defined
over the string's character list. -/
def parseU32 (s : String) : Option Nat :=
  let cs := if s.data.head? = some '+' then s.data.tail else s.data
  if cs ≠ [] ∧ cs.all Char.isDigit then
    let n := cs.foldl (fun n c => n * 10 + (c.toNat - '0'.toNat)) 0
    if n < 2 ^ 32 then some n else none
  else none

/-- A cookie jar: named cookies with string values. -/
abbrev CookieJar := List (String × String)

/-- Translation of `user_id` from `main.rs`: if the jar has a `user_id` cookie whose value
parses as a u32, return it and leave the jar alone; otherwise generate a
random u32 (`rnd`, passed in as the model of `rand::random`), add a
`user_id` cookie with its decimal representation, and return it. -/
def user_id (jar : CookieJar) (rnd : Nat) : Nat × CookieJar :=
  match (jar.find? (fun c => c.1 = "user_id")).bind (fun c => parseU32 c.2) with
  | some uid => (uid, jar)
  | none => (rnd, jar ++ [("user_id", toString rnd)])

/-- Translation of `index` from `main.rs`: obtain the user id from the cookie jar, call
`access_refresh_mut_with_create` with a creation closure returning
`Some(Tetris::new(10, 20))` and a no-op mutator, and respond with the
decimal representation of `len()`.  Returns the response body, the updated
storage and the updated cookie jar. -/
def index (jar : CookieJar) (rnd : Nat) (tetrises : Tetrises) :
    String × Tetrises × CookieJar :=
  let uid := (user_id jar rnd).1
  let jar' := (user_id jar rnd).2
  let tetrises' :=
    tetrises.access_refresh_mut_with_create uid (fun _ => some (Tetris.new 10 20)) (fun t => t)
  (toString tetrises'.len, tetrises', jar')

/-- Translation of `game_state` from `main.rs`: read the user's game with
`access_refresh`, serializing it when present (serialization modelled by a
caller-supplied function); an absent user yields the 404 branch. -/
def game_state (jar : CookieJar) (rnd : Nat) (tetrises : Tetrises)
    (serialize : Tetris → String) : Except String String × Tetrises :=
  let uid := (user_id jar rnd).1
  let r := tetrises.access_refresh uid (fun t => t.map serialize)
  match r.1.bind id with
  | some body => (Except.ok body, r.2)
  | none => (Except.error "User not found", r.2)

/-! ## Basic facts about the storage operations -/

namespace LRUStorage

variable {K : Type u} {V : Type v} {R : Type w} [DecidableEq K]

theorem find?_eq_none_of_lookup_eq_none {s : LRUStorage K V} {k : K}
    (h : s.lookup k = none) : s.entries.find? (fun e => e.1 = k) = none := by
  unfold lookup at h
  exact Option.map_eq_none'.mp h

theorem find?_eq_of_lookup_eq_some {s : LRUStorage K V} {k : K} {v : V}
    (h : s.lookup k = some v) : s.entries.find? (fun e => e.1 = k) = some (k, v) := by
  unfold lookup at h
  cases hf : s.entries.find? (fun e => e.1 = k) with
  | none => rw [hf] at h; simp at h
  | some e =>
    cases e with
    | mk k0 v0 =>
      rw [hf] at h
      have hp := List.find?_some hf
      simp only [decide_eq_true_eq] at hp
      simp only [Option.map_some'] at h
      cases h
      rw [hp]

theorem access_refresh_of_find?_eq_some {s : LRUStorage K V} {k k0 : K} {v0 : V}
    (f : Option V → R) (h : s.entries.find? (fun e => e.1 = k) = some (k0, v0)) :
    s.access_refresh k f =
      (some (f (some v0)),
        { s with entries := (k, v0) :: s.entries.eraseP (fun e => e.1 = k) }) := by
  unfold access_refresh
  rw [h]

theorem access_refresh_of_find?_eq_none {s : LRUStorage K V} {k : K}
    (f : Option V → R) (h : s.entries.find? (fun e => e.1 = k) = none) :
    s.access_refresh k f = (some (f none), s) := by
  unfold access_refresh
  rw [h]

theorem amwc_of_find?_eq_some {s : LRUStorage K V} {k k0 : K} {v0 : V}
    (c : Unit → Option V) (m : V → V)
    (h : s.entries.find? (fun e => e.1 = k) = some (k0, v0)) :
    s.access_refresh_mut_with_create k c m =
      { s with entries := (k, m v0) :: s.entries.eraseP (fun e => e.1 = k) } := by
  unfold access_refresh_mut_with_create
  rw [h]

theorem amwc_of_absent_none {s : LRUStorage K V} {k : K}
    (c : Unit → Option V) (m : V → V)
    (h : s.entries.find? (fun e => e.1 = k) = none) (hc : c () = none) :
    s.access_refresh_mut_with_create k c m = s := by
  unfold access_refresh_mut_with_create
  rw [h, hc]

theorem amwc_of_absent_some {s : LRUStorage K V} {k : K} {v : V}
    (c : Unit → Option V) (m : V → V)
    (h : s.entries.find? (fun e => e.1 = k) = none) (hc : c () = some v) :
    s.access_refresh_mut_with_create k c m =
      { s with entries := (k, m v) ::
          (if s.entries.length + 1 > s.capacity then s.entries.dropLast else s.entries) } := by
  unfold access_refresh_mut_with_create
  rw [h, hc]


theorem lookup_eq_none_iff {s : LRUStorage K V} {k : K} :
    s.lookup k = none ↔ k ∉ s.keys := by
  unfold lookup keys
  rw [Option.map_eq_none', List.find?_eq_none]
  constructor
  · intro h hk
    obtain ⟨e, he, hek⟩ := List.mem_map.mp hk
    exact h e he (by simp [hek])
  · intro h e he
    simp only [decide_eq_true_eq]
    intro hek
    exact h (List.mem_map.mpr ⟨e, he, hek⟩)

theorem capacity_access_refresh (s : LRUStorage K V) (k : K) (f : Option V → R) :
    (s.access_refresh k f).2.capacity = s.capacity := by
  unfold access_refresh
  cases h : s.entries.find? (fun e => e.1 = k) with
  | none => rfl
  | some e => cases e; rfl

theorem capacity_amwc (s : LRUStorage K V) (k : K) (c : Unit → Option V) (m : V → V) :
    (s.access_refresh_mut_with_create k c m).capacity = s.capacity := by
  unfold access_refresh_mut_with_create
  cases h : s.entries.find? (fun e => e.1 = k) with
  | none => cases hc : c () with
    | none => rfl
    | some v => rfl
  | some e => cases e; rfl

theorem len_access_refresh (s : LRUStorage K V) (k : K) (f : Option V → R) :
    (s.access_refresh k f).2.len = s.len := by
  unfold access_refresh len
  cases h : s.entries.find? (fun e => e.1 = k) with
  | none => rfl
  | some e =>
    cases e with
    | mk k0 v0 =>
      have hmem := List.mem_of_find?_eq_some h
      have hp := List.find?_some h
      have hlen : (s.entries.eraseP (fun e => e.1 = k)).length = s.entries.length - 1 :=
        List.length_eraseP_of_mem hmem hp
      have hpos : 0 < s.entries.length := List.length_pos_of_mem hmem
      simp only [List.length_cons, hlen]
      omega

theorem len_amwc_le (s : LRUStorage K V) (k : K) (c : Unit → Option V) (m : V → V)
    (hcap : 0 < s.capacity) (hle : s.len ≤ s.capacity) :
    (s.access_refresh_mut_with_create k c m).len ≤ s.capacity := by
  unfold access_refresh_mut_with_create len at *
  cases h : s.entries.find? (fun e => e.1 = k) with
  | none =>
    cases hc : c () with
    | none => exact hle
    | some v =>
      simp only
      split
      · simp only [List.length_cons, List.length_dropLast]
        omega
      · simp only [List.length_cons]
        omega
  | some e =>
    cases e with
    | mk k0 v0 =>
      have hmem := List.mem_of_find?_eq_some h
      have hp := List.find?_some h
      have hlen : (s.entries.eraseP (fun e => e.1 = k)).length = s.entries.length - 1 :=
        List.length_eraseP_of_mem hmem hp
      have hpos : 0 < s.entries.length := List.length_pos_of_mem hmem
      simp only [List.length_cons, hlen]
      omega

theorem applyOp_capacity (s : LRUStorage K V) (o : Op K V) :
    (applyOp s o).capacity = s.capacity := by
  cases o with
  | read k => exact capacity_access_refresh s k _
  | write k c m => exact capacity_amwc s k _ m

theorem applyOp_len_le (s : LRUStorage K V) (o : Op K V)
    (hcap : 0 < s.capacity) (hle : s.len ≤ s.capacity) :
    (applyOp s o).len ≤ s.capacity := by
  cases o with
  | read k =>
    show (s.access_refresh k (fun _ => ())).2.len ≤ s.capacity
    rw [len_access_refresh]; exact hle
  | write k c m =>
    exact len_amwc_le s k (fun _ => c) m hcap hle

theorem foldl_len_le (ops : List (Op K V)) (s : LRUStorage K V)
    (hcap : 0 < s.capacity) (hle : s.len ≤ s.capacity) :
    (ops.foldl applyOp s).len ≤ (ops.foldl applyOp s).capacity ∧
      (ops.foldl applyOp s).capacity = s.capacity := by
  induction ops generalizing s with
  | nil => exact ⟨hle, rfl⟩
  | cons o ops ih =>
    simp only [List.foldl_cons]
    have hcap' : (applyOp s o).capacity = s.capacity := applyOp_capacity s o
    have := ih (applyOp s o) (hcap' ▸ hcap) (hcap' ▸ applyOp_len_le s o hcap hle)
    exact ⟨this.1, this.2.trans hcap'⟩

theorem not_mem_keys_eraseP {l : List (K × V)} {k : K}
    (h : (l.map Prod.fst).Nodup) :
    k ∉ (l.eraseP (fun e => e.1 = k)).map Prod.fst := by
  induction l with
  | nil => simp
  | cons e l ih =>
    by_cases hek : e.1 = k
    · rw [List.eraseP_cons_of_pos (by simp [hek])]
      simp only [List.map_cons, List.nodup_cons] at h
      rw [← hek]
      exact h.1
    · rw [List.eraseP_cons_of_neg (by simp [hek])]
      simp only [List.map_cons, List.nodup_cons] at h
      simp only [List.map_cons, List.mem_cons]
      rintro (rfl | hmem)
      · exact hek rfl
      · exact ih h.2 hmem

omit [DecidableEq K] in
theorem nodup_keys_eraseP {l : List (K × V)} {p : K × V → Bool}
    (h : (l.map Prod.fst).Nodup) : ((l.eraseP p).map Prod.fst).Nodup :=
  h.sublist ((l.eraseP_sublist).map Prod.fst)

theorem applyOp_nodup (s : LRUStorage K V) (o : Op K V)
    (h : s.keys.Nodup) : (applyOp s o).keys.Nodup := by
  cases o with
  | read k =>
    show ((s.access_refresh k (fun _ => ())).2.entries.map Prod.fst).Nodup
    unfold access_refresh
    cases hf : s.entries.find? (fun e => e.1 = k) with
    | none => exact h
    | some e =>
      cases e with
      | mk k0 v0 =>
        simp only [List.map_cons, List.nodup_cons]
        exact ⟨not_mem_keys_eraseP h, nodup_keys_eraseP h⟩
  | write k c m =>
    show ((s.access_refresh_mut_with_create k (fun _ => c) m).entries.map Prod.fst).Nodup
    unfold access_refresh_mut_with_create
    cases hf : s.entries.find? (fun e => e.1 = k) with
    | none =>
      cases c with
      | none => exact h
      | some v =>
        have habs : k ∉ s.keys := lookup_eq_none_iff.mp (by unfold lookup; rw [hf]; rfl)
        simp only [List.map_cons, List.nodup_cons]
        split
        · constructor
          · intro hk
            exact habs (List.Sublist.subset ((s.entries.dropLast_sublist).map Prod.fst) hk)
          · exact h.sublist ((s.entries.dropLast_sublist).map Prod.fst)
        · exact ⟨habs, h⟩
    | some e =>
      cases e with
      | mk k0 v0 =>
        simp only [List.map_cons, List.nodup_cons]
        exact ⟨not_mem_keys_eraseP h, nodup_keys_eraseP h⟩

theorem foldl_nodup (ops : List (Op K V)) (s : LRUStorage K V)
    (h : s.keys.Nodup) : (ops.foldl applyOp s).keys.Nodup := by
  induction ops generalizing s with
  | nil => exact h
  | cons o ops ih => exact ih (applyOp s o) (applyOp_nodup s o h)

end LRUStorage

namespace LRUStorage

variable {K : Type u} {V : Type v} {R : Type w} [DecidableEq K]

theorem lookup_amwc_isSome {s : LRUStorage K V} {k : K} {c : Unit → Option V} {m : V → V}
    (hc : (c ()).isSome) :
    ((s.access_refresh_mut_with_create k c m).lookup k).isSome := by
  cases hf : s.entries.find? (fun e => e.1 = k) with
  | some e =>
    cases e with
    | mk k0 v0 =>
      rw [amwc_of_find?_eq_some c m hf]
      simp [lookup]
  | none =>
    obtain ⟨v, hv⟩ := Option.isSome_iff_exists.mp hc
    rw [amwc_of_absent_some c m hf hv]
    simp [lookup]

end LRUStorage

/-! ## The claims -/

/-- C1: for every sequence of operations (`access_refresh`,
`access_refresh_mut_with_create`; `len` does not change state) on an
`LRUStorage` constructed by `new` with positive capacity `c`, the number of
live entries after each operation is at most `c`.  Quantifying over all
operation sequences covers every operation boundary, since every prefix of a
sequence is itself a sequence. -/
theorem lru_capacity_invariant {K : Type u} {V : Type v} [DecidableEq K]
    (c : Nat) (hc : 0 < c) (ops : List (LRUStorage.Op K V)) :
    (LRUStorage.run c ops).len ≤ c := by
  have h := LRUStorage.foldl_len_le ops (LRUStorage.new c) hc (Nat.zero_le c)
  calc (LRUStorage.run c ops).len
      ≤ (ops.foldl LRUStorage.applyOp (LRUStorage.new c)).capacity := h.1
    _ = c := h.2

/-- Witness for C1: a concrete run of three insertions into a capacity-2
storage keeps the entry count at most 2. -/
theorem lru_capacity_invariant_witness :
    (LRUStorage.run 2 ([.write 0 (some 10) id, .write 1 (some 11) id,
        .write 2 (some 12) id] : List (LRUStorage.Op Nat Nat))).len ≤ 2 :=
  lru_capacity_invariant 2 (by decide) _

/-- C2: inserting a fresh key into a full storage (entry count = capacity,
positive) evicts exactly the least-recently-used entry — the resulting entry
list is the new most-recently-used entry followed by all old entries except
the last (least-recently-used) one, in order; and when the storage is not
full, no entry is removed at all. -/
theorem lru_eviction_correct {K : Type u} {V : Type v} [DecidableEq K]
    (s : LRUStorage K V) (k : K) (v : V) (m : V → V)
    (habs : s.lookup k = none) :
    (s.len = s.capacity → 0 < s.capacity →
      (s.access_refresh_mut_with_create k (fun _ => some v) m).entries
        = (k, m v) :: s.entries.dropLast)
    ∧ (s.len < s.capacity →
      (s.access_refresh_mut_with_create k (fun _ => some v) m).entries
        = (k, m v) :: s.entries) := by
  have hf := LRUStorage.find?_eq_none_of_lookup_eq_none habs
  rw [LRUStorage.amwc_of_absent_some (fun _ => some v) m hf rfl]
  unfold LRUStorage.len at *
  constructor
  · intro hfull hpos
    simp only [if_pos (show s.entries.length + 1 > s.capacity by omega)]
  · intro hlt
    simp only [if_neg (show ¬ s.entries.length + 1 > s.capacity by omega)]

/-- Witness for C2: inserting key 3 into the full capacity-2 storage holding
keys 1 (most recent) and 2 evicts exactly the entry for 2. -/
theorem lru_eviction_correct_witness :
    ((⟨2, [(1, 10), (2, 20)]⟩ : LRUStorage Nat Nat).access_refresh_mut_with_create 3
        (fun _ => some 30) id).entries = [(3, 30), (1, 10)] :=
  (lru_eviction_correct ⟨2, [(1, 10), (2, 20)]⟩ 3 30 id (by decide)).1 (by decide) (by decide)

/-- C4: `access_refresh` invokes `read_fn` exactly once — on `none` when the
key is absent (leaving the state unchanged) and on `some v` when the key is
present with stored value `v` — and returns `some` of the closure's result.
Invocation-exactly-once is rendered by the result being `read_fn` applied to
precisely the correct presence indication. -/
theorem lru_access_refresh_read_fn {K : Type u} {V : Type v} {R : Type w} [DecidableEq K]
    (s : LRUStorage K V) (k : K) (f : Option V → R) :
    (s.lookup k = none → s.access_refresh k f = (some (f none), s))
    ∧ (∀ v, s.lookup k = some v → (s.access_refresh k f).1 = some (f (some v))) := by
  constructor
  · intro h
    exact LRUStorage.access_refresh_of_find?_eq_none f
      (LRUStorage.find?_eq_none_of_lookup_eq_none h)
  · intro v hv
    rw [LRUStorage.access_refresh_of_find?_eq_some f
      (LRUStorage.find?_eq_of_lookup_eq_some hv)]

/-- Witness for C4: reading absent key 5 from a capacity-3 storage returns
`some` of the closure applied to `none`, with the storage unchanged. -/
theorem lru_access_refresh_read_fn_witness :
    (⟨3, []⟩ : LRUStorage Nat Nat).access_refresh 5 Option.isNone
      = (some true, ⟨3, []⟩) :=
  (lru_access_refresh_read_fn ⟨3, []⟩ 5 Option.isNone).1 (by decide)

/-- C5: on an absent key, `access_refresh` and `access_refresh_mut_with_create`
with a declining creation function leave the storage (entry list, hence
`len()` and the recency order) completely unchanged; the closing conjuncts
are Scenario C: a read-with-refresh of a never-inserted key on a fresh
capacity-3 storage yields the absent-branch result while `len()` stays 0. -/
theorem lru_absent_non_mutating {K : Type u} {V : Type v} {R : Type w} [DecidableEq K]
    (s : LRUStorage K V) (k : K) (f : Option V → R) (c : Unit → Option V) (m : V → V)
    (habs : s.lookup k = none) :
    (s.access_refresh k f).2 = s
    ∧ (c () = none → s.access_refresh_mut_with_create k c m = s)
    ∧ ((LRUStorage.new 3 : LRUStorage Nat Nat).access_refresh 99 Option.isNone).1 = some true
    ∧ ((LRUStorage.new 3 : LRUStorage Nat Nat).access_refresh 99 Option.isNone).2.len = 0 := by
  have hf := LRUStorage.find?_eq_none_of_lookup_eq_none habs
  refine ⟨?_, ?_, by decide, by decide⟩
  · rw [LRUStorage.access_refresh_of_find?_eq_none f hf]
  · intro hc
    exact LRUStorage.amwc_of_absent_none c m hf hc

/-- Witness for C5: both operations on the absent key 5 leave a concrete
two-entry storage unchanged. -/
theorem lru_absent_non_mutating_witness :
    ((⟨3, [(1, 10)]⟩ : LRUStorage Nat Nat).access_refresh 5 Option.isNone).2
      = ⟨3, [(1, 10)]⟩ :=
  (lru_absent_non_mutating ⟨3, [(1, 10)]⟩ 5 Option.isNone (fun _ => none) id (by decide)).1

/-- C7 (Scenario D): on a capacity-1 storage, two successive
`access_refresh_mut_with_create` calls for key 0 with a creation function
returning `some v1` and an incrementing mutator leave a single entry for
key 0 whose value is `v1 + 2` (created as `v1`, then incremented once per
call — the second call takes the present branch), with `len() = 1`. -/
theorem lru_scenario_D (v1 : Nat) :
    (((LRUStorage.new 1).access_refresh_mut_with_create 0 (fun _ => some v1)
        (· + 1)).access_refresh_mut_with_create 0 (fun _ => some v1) (· + 1)).entries
      = [(0, v1 + 2)]
    ∧ (((LRUStorage.new 1).access_refresh_mut_with_create 0 (fun _ => some v1)
        (· + 1)).access_refresh_mut_with_create 0 (fun _ => some v1) (· + 1)).len = 1 :=
  ⟨rfl, rfl⟩

/-- C3: after `access_refresh` on a present key, or
`access_refresh_mut_with_create` on a present key or with a creating
`create_fn`, the accessed key occupies the most-recently-used (head) position
of the recency order; the final conjunct is Scenario B: capacity 2, insert
keys 0 then 1, refresh 0 by a read, insert 2 — key 1 is evicted, keys 2
(most recent) and 0 remain. -/
theorem lru_recency_update {K : Type u} {V : Type v} {R : Type w} [DecidableEq K]
    (s : LRUStorage K V) (k : K) (f : Option V → R) (c : Unit → Option V) (m : V → V) :
    ((s.lookup k).isSome → ((s.access_refresh k f).2).keys.head? = some k)
    ∧ ((s.lookup k).isSome ∨ (c ()).isSome →
        (s.access_refresh_mut_with_create k c m).keys.head? = some k)
    ∧ (LRUStorage.run 2 ([.write 0 (some 10) id, .write 1 (some 11) id, .read 0,
          .write 2 (some 12) id] : List (LRUStorage.Op Nat Nat))).entries
        = [(2, 12), (0, 10)] := by
  refine ⟨?_, ?_, by decide⟩
  · intro h
    obtain ⟨v, hv⟩ := Option.isSome_iff_exists.mp h
    rw [LRUStorage.access_refresh_of_find?_eq_some f
      (LRUStorage.find?_eq_of_lookup_eq_some hv)]
    rfl
  · intro h
    rcases h with h | h
    · obtain ⟨v, hv⟩ := Option.isSome_iff_exists.mp h
      rw [LRUStorage.amwc_of_find?_eq_some c m
        (LRUStorage.find?_eq_of_lookup_eq_some hv)]
      rfl
    · obtain ⟨v, hv⟩ := Option.isSome_iff_exists.mp h
      cases hf : s.entries.find? (fun e => e.1 = k) with
      | none =>
        rw [LRUStorage.amwc_of_absent_some c m hf hv]
        rfl
      | some e =>
        cases e with
        | mk k0 v0 =>
          rw [LRUStorage.amwc_of_find?_eq_some c m hf]
          rfl

/-- Witness for C3: refreshing the present key 2 of a concrete storage moves
it to the most-recently-used position. -/
theorem lru_recency_update_witness :
    ((⟨2, [(1, 10), (2, 20)]⟩ : LRUStorage Nat Nat).access_refresh 2
        Option.isNone).2.keys.head? = some 2 :=
  (lru_recency_update ⟨2, [(1, 10), (2, 20)]⟩ 2 Option.isNone
    (fun _ => none) id).1 (by decide)

/-- C6: in every state reachable by a sequence of operations from a fresh
storage, the keys of the entry list are pairwise distinct (at most one entry
per key).  In this model the mapping and the recency order are the same
entry list, so each present key's position in the recency order exists and
is unique; the second conjunct relates the two views: a key has a value in
the mapping exactly when it occurs in the recency order. -/
theorem lru_no_duplicate_keys {K : Type u} {V : Type v} [DecidableEq K]
    (c : Nat) (ops : List (LRUStorage.Op K V)) :
    (LRUStorage.run c ops).keys.Nodup
    ∧ ∀ k, (LRUStorage.run c ops).lookup k ≠ none ↔ k ∈ (LRUStorage.run c ops).keys := by
  refine ⟨LRUStorage.foldl_nodup ops _ List.nodup_nil, ?_⟩
  intro k
  constructor
  · intro h
    by_contra hk
    exact h (LRUStorage.lookup_eq_none_iff.mpr hk)
  · intro hk h
    exact LRUStorage.lookup_eq_none_iff.mp h hk

/-- Witness for C6: a concrete run that creates, refreshes and evicts has
pairwise distinct keys. -/
theorem lru_no_duplicate_keys_witness :
    (LRUStorage.run 2 ([.write 0 (some 10) id, .write 1 (some 11) id, .read 0,
        .write 2 (some 12) id] : List (LRUStorage.Op Nat Nat))).keys.Nodup :=
  (lru_no_duplicate_keys 2 _).1

/-- C8: the spec serializes concurrent calls by a single lock, so the race
of two `access_refresh_mut_with_create` calls on the same absent key is the
sequential composition in lock-acquisition order.  The first call creates
the entry; the second finds it present, so afterwards the key holds
`m2 (m1 v1)` (both mutators ran, in order, on the one created value), the
key has exactly one entry, and the second call's `create_fn` is never
consulted (the composite state is the same whatever it returns). -/
theorem lru_race_policy_serialized {K : Type u} {V : Type v} [DecidableEq K]
    (s : LRUStorage K V) (k : K) (v1 : V) (m1 m2 : V → V) (c2 : Unit → Option V)
    (habs : s.lookup k = none) :
    ((s.access_refresh_mut_with_create k (fun _ => some v1)
        m1).access_refresh_mut_with_create k c2 m2).lookup k = some (m2 (m1 v1))
    ∧ (((s.access_refresh_mut_with_create k (fun _ => some v1)
        m1).access_refresh_mut_with_create k c2 m2).keys).count k = 1
    ∧ (s.access_refresh_mut_with_create k (fun _ => some v1)
        m1).access_refresh_mut_with_create k c2 m2
      = (s.access_refresh_mut_with_create k (fun _ => some v1)
        m1).access_refresh_mut_with_create k (fun _ => none) m2 := by
  have hf := LRUStorage.find?_eq_none_of_lookup_eq_none habs
  have h1 := LRUStorage.amwc_of_absent_some (fun _ => some v1) m1 hf rfl
  have hfind1 : (s.access_refresh_mut_with_create k (fun _ => some v1)
      m1).entries.find? (fun e => e.1 = k) = some (k, m1 v1) := by
    rw [h1]
    exact List.find?_cons_of_pos _ (by simp)
  have h2 := LRUStorage.amwc_of_find?_eq_some c2 m2 hfind1
  have herase : (s.access_refresh_mut_with_create k (fun _ => some v1)
      m1).entries.eraseP (fun e => e.1 = k)
      = (if s.entries.length + 1 > s.capacity then s.entries.dropLast else s.entries) := by
    rw [h1]
    exact List.eraseP_cons_of_pos (by simp)
  have hsub : List.Sublist (if s.entries.length + 1 > s.capacity then s.entries.dropLast
      else s.entries) s.entries := by
    split
    · exact List.dropLast_sublist _
    · exact List.Sublist.refl _
  have hk : k ∉ (if s.entries.length + 1 > s.capacity then s.entries.dropLast
      else s.entries).map Prod.fst := by
    intro hmem
    exact LRUStorage.lookup_eq_none_iff.mp habs ((hsub.map Prod.fst).subset hmem)
  refine ⟨?_, ?_, ?_⟩
  · rw [h2]
    unfold LRUStorage.lookup
    rw [List.find?_cons_of_pos _ (by simp)]
    rfl
  · rw [h2]
    unfold LRUStorage.keys
    simp only [List.map_cons, herase]
    rw [List.count_cons_self, List.count_eq_zero.mpr hk]
  · rw [h2, LRUStorage.amwc_of_find?_eq_some (fun _ => none) m2 hfind1]

/-- Witness for C8: two serialized create-or-refresh calls for the absent
key 0 on a fresh capacity-2 storage leave the single value `(1 + 1) * 2`. -/
theorem lru_race_policy_serialized_witness :
    (((LRUStorage.new 2 : LRUStorage Nat Nat).access_refresh_mut_with_create 0
        (fun _ => some 1) (· + 1)).access_refresh_mut_with_create 0
        (fun _ => some 99) (· * 2)).lookup 0 = some 4 :=
  (lru_race_policy_serialized (LRUStorage.new 2) 0 1 (· + 1) (· * 2)
    (fun _ => some 99) (by decide)).1

/-- C9: `user_id` returns the parsed value of an existing parseable
`user_id` cookie and adds no cookie; when the cookie is missing, or present
but not parseable as a u32, it returns the supplied fresh random number and
appends a `user_id` cookie holding that number's decimal representation. -/
theorem user_id_cookie_behavior (jar : CookieJar) (rnd : Nat) :
    (∀ cv n, jar.find? (fun c => c.1 = "user_id") = some cv →
        parseU32 cv.2 = some n → user_id jar rnd = (n, jar))
    ∧ (jar.find? (fun c => c.1 = "user_id") = none →
        user_id jar rnd = (rnd, jar ++ [("user_id", toString rnd)]))
    ∧ (∀ cv, jar.find? (fun c => c.1 = "user_id") = some cv →
        parseU32 cv.2 = none →
        user_id jar rnd = (rnd, jar ++ [("user_id", toString rnd)])) := by
  refine ⟨?_, ?_, ?_⟩
  · intro cv n hf hp
    unfold user_id
    rw [hf]
    simp only [Option.some_bind, hp]
  · intro hf
    unfold user_id
    rw [hf]
    rfl
  · intro cv hf hp
    unfold user_id
    rw [hf]
    simp only [Option.some_bind, hp]

/-- Witness for C9: on a jar whose `user_id` cookie holds `"42"`, the
function returns 42 and does not change the jar. -/
theorem user_id_cookie_behavior_witness :
    user_id [("user_id", "42")] 7 = (42, [("user_id", "42")]) :=
  (user_id_cookie_behavior [("user_id", "42")] 7).1 ("user_id", "42") 42
    (by decide) (by decide)

/-- C10: the index handler passes a creation closure that always returns a
new 10-by-20 Tetris and a no-op mutator, so after every request the caller's
user id is present in the cache, and the response body is the decimal string
of `len()` taken after the `access_refresh_mut_with_create` call. -/
theorem index_handler_behavior (jar : CookieJar) (rnd : Nat) (tetrises : Tetrises) :
    (((index jar rnd tetrises).2.1).lookup (user_id jar rnd).1).isSome
    ∧ (index jar rnd tetrises).1 = toString ((index jar rnd tetrises).2.1).len := by
  constructor
  · exact LRUStorage.lookup_amwc_isSome rfl
  · rfl
